import Mathlib

namespace LLMCore

/-!
Verification development for the generation pipeline of `src/LLMCore.py`
(class `LlamaModel`): context tracking (`evaluate`), sampling
(`sampleTokenWithModel`) and the streaming generation loop (`generate`).

The Python source is shallowly embedded: token ids are `Int` (llama tokens
are C ints), byte strings are `List Nat` (each entry a byte value), logits
are `ℚ` (the float arithmetic of the source is modelled exactly over the
rationals; no claim here depends on rounding).  External llama.cpp
primitives (`llama_eval`, the individual samplers, the tokenizer and the
detokenizer) are parameters of the embedding, except where a claim is
about such a primitive itself; those are modelled from the spec and say so
in their doc comment.
-/

/-- Last `n` elements of a list: models Python's `l[-n:]` slice. -/
def lastN (n : Nat) (l : List α) : List α := l.drop (l.length - n)

/-- Structural worker for `chunksOf`: the fuel argument only forces
termination and is irrelevant as soon as it bounds the list length. -/
def chunksOfAux (n : Nat) : List α → Nat → List (List α)
  | _, 0 => []
  | [], _ + 1 => []
  | x :: xs, fuel + 1 => (x :: xs).take n :: chunksOfAux n (xs.drop (n - 1)) fuel

/-- Split a list into consecutive chunks of size at most `n`.  Models the
Python loop `for i in range(0, len(tokens), batch): tokens[i : i + batch]`
(faithful for `n ≥ 1`, the only way the source reaches it). -/
def chunksOf (n : Nat) (l : List α) : List (List α) := chunksOfAux n l l.length

/-- Overwrite the slice `l[start : start + xs.length]` with `xs`: models a
numpy slice assignment that passed the broadcast check. -/
def setSlice (l : List α) (start : Nat) (xs : List α) : List α :=
  l.take start ++ xs ++ l.drop (start + xs.length)

/-- Substring containment on byte lists: models Python's `pat in hay`
for `bytes`. -/
def containsSub [DecidableEq α] (hay pat : List α) : Bool :=
  match hay with
  | [] => pat.isEmpty
  | _ :: hs => pat.isPrefixOf hay || containsSub hs pat

/-- Index of the leftmost occurrence of `pat` in `hay`: models Python's
`hay.index(pat)` for `bytes` (meaningful when `containsSub hay pat`). -/
def subIndex [DecidableEq α] : List α → List α → Nat
  | [], _ => 0
  | h :: hs, pat => if pat.isPrefixOf (h :: hs) then 0 else subIndex hs pat + 1

/-! ## Configuration

`LLMUtils.LLMConfig` as consumed by `LlamaModel` (the fields the claims
touch).  `antiPrompt` is stored as the UTF-8 byte encodings of the
configured anti-prompt strings (the source encodes them with
`a.encode("utf8")` before matching). -/

structure LLMConfig where
  nCtx : Nat
  nVocab : Nat
  logitsAll : Bool
  n_predict : Nat
  n_keep : Int
  temperature : ℚ
  mirostat : Nat
  mirostat_tau : ℚ
  mirostat_eta : ℚ
  top_k : Nat
  top_p : ℚ
  tfs_z : ℚ
  logit_bias : List (Nat × ℚ)
  antiPromptBytes : List (List Nat)
  prompt : String

/-! ## Context tracking: `LlamaModel.evaluate` (lines 96-117)

The mutable object state the method touches is `pastTokens`, `inputIds`
(a numpy array of length `nCtx`) and `scores` (a `nCtx × nVocab` matrix).
The external `llama_eval` is a parameter `evalStatus` (its returned status
code) together with `logitsBuf` (the flat buffer `llama_get_logits` exposes
right after that call).  Python exceptions abort the method but keep the
object mutations already made, so the embedding returns the state reached
at the point of the error, plus the log of adapter invocations. -/

structure CtxState where
  pastTokens : Nat
  inputIds : List Int
  scores : List (List ℚ)
deriving Repr, DecidableEq

/-- Errors `evaluate` can raise: `evalFailed` is the `RuntimeError` from
`warnAndExit` on a non-zero `llama_eval` status; `broadcastError` is the
numpy `ValueError` raised by the slice assignment
`inputIds[pastTokens : pastTokens + nTokens] = nBatch` when the clipped
slice length differs from the chunk length.  The source defines no
`ContextOverflowError` (nor any capacity check of its own). -/
inductive EvalErr
  | evalFailed
  | broadcastError
deriving Repr, DecidableEq

structure EvalOutcome where
  err : Option EvalErr
  state : CtxState
  calls : List (List Int × Int)
deriving Repr, DecidableEq

/-- One iteration of the chunk loop in `evaluate`: computes
`nPast = min(nCtx - len(nBatch), len(inputIds[:pastTokens]))`, invokes the
adapter, checks its status, performs the two slice assignments and bumps
`pastTokens`.  Returns the call record, the error if one was raised, and
the state after the iteration.  The broadcast condition is numpy's: the
clipped target slice of `inputIds[pastTokens : pastTokens + n]` must have
length `n`.  One numpy corner is folded in: for a chunk of length 1
overflowing a full window the right-hand side would broadcast through the
empty `inputIds` slice and the `ValueError` would instead arise at the
`scores` assignment of line 115 (shape `(nVocab,)` against `(0,)`, for
any real vocabulary of size at least 2) — same observable outcome: an
error after the adapter call, with the state untouched. -/
def evalOneChunk (cfg : LLMConfig) (evalStatus : List Int → Int → Int)
    (logitsBuf : List Int → Int → List ℚ) (st : CtxState) (chunk : List Int) :
    (List Int × Int) × Option EvalErr × CtxState :=
  let n := chunk.length
  let nPast : Int := min ((cfg.nCtx : Int) - (n : Int)) (((st.inputIds.take st.pastTokens).length : Int))
  let status := evalStatus chunk nPast
  if status ≠ 0 then ((chunk, nPast), some .evalFailed, st)
  else if min cfg.nCtx (st.pastTokens + n) - min cfg.nCtx st.pastTokens ≠ n then
    ((chunk, nPast), some .broadcastError, st)
  else
    let inputIds2 := setSlice st.inputIds st.pastTokens chunk
    let rows := if cfg.logitsAll then n else 1
    let offset := if cfg.logitsAll then 0 else n - 1
    let newRows := chunksOf cfg.nVocab ((logitsBuf chunk nPast).take (rows * cfg.nVocab))
    let scores2 := setSlice st.scores (st.pastTokens + offset) newRows
    ((chunk, nPast), none, ⟨st.pastTokens + n, inputIds2, scores2⟩)

/-- The chunk loop of `evaluate`, over an already-split chunk list. -/
def evalChunks (cfg : LLMConfig) (evalStatus : List Int → Int → Int)
    (logitsBuf : List Int → Int → List ℚ) (st : CtxState) :
    List (List Int) → EvalOutcome
  | [] => ⟨none, st, []⟩
  | c :: cs =>
    match evalOneChunk cfg evalStatus logitsBuf st c with
    | (rec0, some e, st2) => ⟨some e, st2, [rec0]⟩
    | (rec0, none, st2) =>
      let rest := evalChunks cfg evalStatus logitsBuf st2 cs
      ⟨rest.err, rest.state, rec0 :: rest.calls⟩

/-- `LlamaModel.evaluate(tokens, batch)`: the whole body sits under
`if batch > 0:`, so a non-positive batch does nothing at all. -/
def evaluateImpl (cfg : LLMConfig) (evalStatus : List Int → Int → Int)
    (logitsBuf : List Int → Int → List ℚ) (st : CtxState) (tokens : List Int)
    (batch : Int) : EvalOutcome :=
  if 0 < batch then
    evalChunks cfg evalStatus logitsBuf st (chunksOf batch.toNat tokens)
  else ⟨none, st, []⟩

/-- Spec-side description of the adapter invocations `appendAndEvaluate`
must make (spec section 4.1): each chunk is passed with
`pastCount = min(capacity - chunkLength, tokensEvaluatedSoFar)` where the
counter advances by the chunk length after each call.  Used to compare
the embedded source against the spec sentence of claim C8. -/
def specCalls (nCtx : Nat) (past : Nat) : List (List Int) → List (List Int × Int)
  | [] => []
  | c :: cs =>
    (c, min ((nCtx : Int) - (c.length : Int)) (past : Int)) :: specCalls nCtx (past + c.length) cs

/-- Concrete configuration used by witnesses about `evaluate` (its sampling
fields are irrelevant there). -/
def cfgEvalA : LLMConfig :=
  { nCtx := 4, nVocab := 1, logitsAll := false, n_predict := 0, n_keep := 0,
    temperature := 1, mirostat := 0, mirostat_tau := 5, mirostat_eta := 1/10, top_k := 40,
    top_p := 9/10, tfs_z := 1, logit_bias := [], antiPromptBytes := [], prompt := "" }

/-- Fresh context state matching `cfgEvalA` (as after `_init`). -/
def stEvalA : CtxState := ⟨0, [0, 0, 0, 0], [[0], [0], [0], [0]]⟩

/-- Concrete configuration with capacity 2, used by the C3 counterexample. -/
def cfgEvalB : LLMConfig :=
  { nCtx := 2, nVocab := 1, logitsAll := false, n_predict := 0, n_keep := 0,
    temperature := 1, mirostat := 0, mirostat_tau := 5, mirostat_eta := 1/10, top_k := 40,
    top_p := 9/10, tfs_z := 1, logit_bias := [], antiPromptBytes := [], prompt := "" }

/-- Fresh context state matching `cfgEvalB`. -/
def stEvalB : CtxState := ⟨0, [0, 0], [[0], [0]]⟩

/-- Adapter stub whose evaluate always reports success. -/
def adapterOkStatus : List Int → Int → Int := fun _ _ => 0

/-- Adapter stub producing a one-float logits buffer. -/
def adapterOneLogit : List Int → Int → List ℚ := fun _ _ => [0]

/-! ## Sampler: `LlamaModel.sampleTokenWithModel` (lines 119-195)

The method reads the latest logits row (`scores[:pastTokens][-1, :]`) and
the recent-token window built on lines 120-125; both feed the embedding as
the parameters `logits` and `lastTokens` (the window construction itself
only parameterises the external penalties primitive and no claim touches
it).  Every llama.cpp sampling primitive the method calls is a field of
`SamplerExt`, except the greedy sampler, which claim C6 is about and which
is therefore modelled from the spec as `greedyArgmax`. -/

/-- External llama.cpp sampling primitives, as black boxes over candidate
logits in token-id order.  `mirostatV1`/`mirostatV2` take the current `mu`
and return the sampled id together with the updated `mu` (the C API
updates `mu` through a pointer; the pair models that).  The constant
`min_keep = 1` arguments the source passes to the filters are folded into
the black boxes. -/
structure SamplerExt where
  repPen : List Int → List ℚ → List ℚ
  tempScale : ℚ → List ℚ → List ℚ
  mirostatV1 : ℚ → ℚ → ℚ → Int → List ℚ → Int × ℚ
  mirostatV2 : ℚ → ℚ → ℚ → List ℚ → Int × ℚ
  topK : Nat → List ℚ → List ℚ
  tailFree : ℚ → List ℚ → List ℚ
  typical : ℚ → List ℚ → List ℚ
  topP : ℚ → List ℚ → List ℚ
  sampleDraw : List ℚ → Int

/-- Bias pass (lines 128-129): `logits[token] = logits[token] * bias` for
each entry of the `logit_bias` dict, in iteration order. -/
def applyLogitBias (bias : List (Nat × ℚ)) (logits : List ℚ) : List ℚ :=
  match bias with
  | [] => logits
  | (t, b) :: rest => applyLogitBias rest (logits.set t (logits.getD t 0 * b))

/-- Modelled from the spec: the external `llama_sample_token_greedy`
(llama.cpp, not part of this repository) — "pick the argmax logit, ties
broken by lowest token id".  With candidates in token-id order this is the
first index whose logit is greater than or equal to every logit. -/
def greedyArgmax (l : List ℚ) : Nat :=
  l.findIdx (fun v => l.all (fun w => w ≤ v))

/-- `sampleTokenWithModel`: bias pass, repetition penalties, then the
strategy dispatch of lines 148-194.  Besides the sampled id the embedding
exposes, for the mirostat branches, the `mu` value handed to the external
mirostat primitive: the source builds it as the fresh local
`mirostatMU = c_float(2.0 * mirostat_tau)` on every call and discards the
primitive's by-reference update (no `mu` lives anywhere in the object). -/
def sampleTokenWithModel (cfg : LLMConfig) (ext : SamplerExt) (lastTokens : List Int)
    (logits : List ℚ) : Int × Option ℚ :=
  let biased := applyLogitBias cfg.logit_bias logits
  let pen := ext.repPen lastTokens biased
  if cfg.temperature = 0 then
    ((greedyArgmax pen : Int), none)
  else if cfg.mirostat = 1 then
    let mirostatMU := 2 * cfg.mirostat_tau
    let scaled := ext.tempScale cfg.temperature pen
    ((ext.mirostatV1 cfg.mirostat_tau cfg.mirostat_eta mirostatMU 100 scaled).1, some mirostatMU)
  else if cfg.mirostat = 2 then
    let mirostatMU := 2 * cfg.mirostat_tau
    let scaled := ext.tempScale cfg.temperature pen
    ((ext.mirostatV2 cfg.mirostat_tau cfg.mirostat_eta mirostatMU scaled).1, some mirostatMU)
  else
    let l1 := ext.topK cfg.top_k pen
    let l2 := ext.tailFree cfg.tfs_z l1
    let l3 := ext.typical 1 l2
    let l4 := ext.topP cfg.top_p l3
    let l5 := ext.tempScale cfg.temperature l4
    (ext.sampleDraw l5, none)

/-- Mu value handed to the external mirostat primitive at sampling step
`n` of a generation call (`none` outside the mirostat branches).  A
generation call samples by invoking `sampleTokenWithModel` once per step;
the object carries no mirostat state between those invocations, so step
`n` depends only on that step's logits row and recent-token window. -/
def sampleStepsMu (cfg : LLMConfig) (ext : SamplerExt) (logitsSeq : Nat → List ℚ)
    (lastSeq : Nat → List Int) (n : Nat) : Option ℚ :=
  (sampleTokenWithModel cfg ext (lastSeq n) (logitsSeq n)).2

/-- Configuration with mirostat v1 active (tau 5, temperature 1), for the
C1 evaluation. -/
def cfgMiro : LLMConfig :=
  { nCtx := 8, nVocab := 2, logitsAll := false, n_predict := 4, n_keep := 0,
    temperature := 1, mirostat := 1, mirostat_tau := 5, mirostat_eta := 1/10, top_k := 40,
    top_p := 9/10, tfs_z := 1, logit_bias := [], antiPromptBytes := [], prompt := "" }

/-- Sampler externals stub: identity filters, and mirostat primitives
whose update genuinely moves `mu` (to `mu - 1`), so that discarding the
update is observable. -/
def extStub : SamplerExt :=
  { repPen := fun _ l => l, tempScale := fun _ l => l,
    mirostatV1 := fun _ _ mu _ _ => (0, mu - 1),
    mirostatV2 := fun _ _ mu _ => (0, mu - 1),
    topK := fun _ l => l, tailFree := fun _ l => l, typical := fun _ l => l,
    topP := fun _ l => l, sampleDraw := fun _ => 0 }

/-- Configuration with temperature 0 and aggressive non-greedy settings
(mirostat 1, top-k, top-p), for the C6 witness. -/
def cfgGreedy : LLMConfig :=
  { nCtx := 8, nVocab := 4, logitsAll := false, n_predict := 4, n_keep := 0,
    temperature := 0, mirostat := 1, mirostat_tau := 5, mirostat_eta := 1/10, top_k := 40,
    top_p := 9/10, tfs_z := 1, logit_bias := [], antiPromptBytes := [], prompt := "" }

/-! ## Stream decoding and the generation loop: `LlamaModel.generate` (lines 223-274)

Tokens produced by `generateTokens` are abstracted as the stream
`sample : Nat → Int` (one id per loop iteration; the claims quantify over
every such stream), and `llama_token_to_piece` as `tokByte`.  Decoding of
the accumulated bytes to `str` (with `errors="ignore"`) happens outside
the loop and is external; the embedding works at the byte level
throughout.  On the stop-token branch the source also recomputes
`finalString` under the odd guard `len(finalString) + 1 != len(tokens)`
(line 246), a string-length computation that needs the external decoder;
no claim touches that value and the embedding leaves the state of that
branch as it stood. -/

/-- Inner pattern loop of the incomplete-byte fix (lines 253-255): for the
patterns `(2, 192), (3, 224), (4, 240)` in order, if `number > k` and
`pattern & char == pattern`, overwrite the countdown with `number - k`. -/
def fixByte (f k c : Nat) : Nat :=
  let f1 := if 2 > k ∧ 192 &&& c = 192 then 2 - k else f
  let f2 := if 3 > k ∧ 224 &&& c = 224 then 3 - k else f1
  if 4 > k ∧ 240 &&& c = 240 then 4 - k else f2

/-- Outer loop of lines 251-255: `for k, char in enumerate(tempBytes[-3:])`
with `k` replaced by `3 - k`; `i` is the running enumerate index. -/
def fixList (f i : Nat) : List Nat → Nat
  | [] => f
  | c :: cs => fixList (fixByte f (3 - i) c) (i + 1) cs

/-- The incomplete-byte countdown recomputation over the last three
buffered bytes, seeded with the current `incompleteFix`. -/
def recomputeFix (tempBytes : List Nat) (f : Nat) : Nat :=
  fixList f 0 (lastN 3 tempBytes)

/-- Mutable loop state of `generate`: accepted tokens, the byte buffer,
the incomplete-byte countdown, and the bytes behind `finalString`
(empty list standing for the initial `""`). -/
structure LoopState where
  tokens : List Int
  tempBytes : List Nat
  incompleteFix : Nat
  finalBytes : List Nat
deriving Repr, DecidableEq

/-- Which `break` ended the loop. -/
inductive BreakReason
  | stopToken
  | antiPrompt
  | lengthCap
deriving Repr, DecidableEq

/-- Result of one loop iteration; `checked` records whether the iteration
reached the anti-prompt / length checks (false when the countdown
`continue` skipped them). -/
inductive StepRes
  | cont (checked : Bool) (st : LoopState)
  | brk (reason : BreakReason) (st : LoopState)
deriving Repr, DecidableEq

/-- Whether the iteration reached the anti-prompt / length checks. -/
def stepChecked : StepRes → Bool
  | .cont c _ => c
  | .brk .stopToken _ => false
  | .brk .antiPrompt _ => true
  | .brk .lengthCap _ => true

/-- Byte concatenation behind `tokensToString` (the final decode to `str`
is external). -/
def tokensBytes (tokByte : Int → List Nat) (tokens : List Int) : List Nat :=
  (tokens.map tokByte).flatten

/-- One iteration of the `for t in self.generateTokens(...)` loop body
(lines 245-271). -/
def loopStep (eos : Int) (exitTokens : List Int) (encAnti : List (List Nat)) (nPredict : Nat)
    (tokByte : Int → List Nat) (st : LoopState) (t : Int) : StepRes :=
  if t = eos ∨ t ∈ exitTokens then .brk .stopToken st
  else
    let tokens := st.tokens ++ [t]
    let tempBytes := st.tempBytes ++ tokByte t
    let fix := recomputeFix tempBytes st.incompleteFix
    if 0 < fix then .cont false ⟨tokens, tempBytes, fix - 1, st.finalBytes⟩
    else
      match encAnti.filter (fun a => containsSub tempBytes a) with
      | a :: _ =>
        .brk .antiPrompt ⟨tokens, tempBytes.take (subIndex tempBytes a), fix, st.finalBytes⟩
      | [] =>
        if nPredict < tokens.length then
          .brk .lengthCap ⟨tokens, tempBytes, fix, tokensBytes tokByte tokens⟩
        else .cont true ⟨tokens, tempBytes, fix, st.finalBytes⟩

/-- Driver of the loop: `fuel` bounds how many iterations we unroll (the
Python loop itself has no bound), `iter` indexes the sample stream.  The
boolean is true when some `break` terminated the loop within `fuel`
iterations. -/
def runFrom (eos : Int) (exitTokens : List Int) (encAnti : List (List Nat)) (nPredict : Nat)
    (tokByte : Int → List Nat) (sample : Nat → Int) :
    Nat → Nat → LoopState → LoopState × Bool
  | 0, _, st => (st, false)
  | fuel + 1, iter, st =>
    match loopStep eos exitTokens encAnti nPredict tokByte st (sample iter) with
    | .brk _ st2 => (st2, true)
    | .cont _ st2 => runFrom eos exitTokens encAnti nPredict tokByte sample fuel (iter + 1) st2

/-- State at loop entry (lines 226-228, 243). -/
def initLoopState : LoopState := ⟨[], [], 0, []⟩

/-- Observable outcome of `generate`: the early `return ""` of line 235,
or a run of the loop. -/
inductive GenOutcome
  | promptTooLong
  | ran (st : LoopState) (terminated : Bool)
deriving Repr, DecidableEq

/-- `LlamaModel.generate`: tokenize the prompt (or substitute the BOS
token when it is empty; `tok` abstracts `tokenizeFull`), return `""` at
once when the token count reaches `parameters.nCtx` (lines 232-235), and
otherwise run the loop with `EOSToken = 32000` and
`exitTokens = [32002, 32001]`. -/
def generateModel (cfg : LLMConfig) (tok : String → List Int) (bos : Int)
    (sample : Nat → Int) (tokByte : Int → List Nat) (fuel : Nat) : GenOutcome :=
  let ptoks := if cfg.prompt = "" then [bos] else tok cfg.prompt
  if cfg.nCtx ≤ ptoks.length then .promptTooLong
  else
    let r := runFrom 32000 [32002, 32001] cfg.antiPromptBytes cfg.n_predict tokByte sample
      fuel 0 initLoopState
    .ran r.1 r.2

/-- Bytes behind the string `generate` returns (line 274 picks
`finalString` when non-empty, else the decoded buffer; line 235 returns
`""`). -/
def genOutputBytes : GenOutcome → List Nat
  | .promptTooLong => []
  | .ran st _ => if st.finalBytes = [] then st.tempBytes else st.finalBytes

/-- Accepted tokens after `n` loop iterations with no break. -/
def tokensUpTo (sample : Nat → Int) (n : Nat) : List Int :=
  (List.range n).map sample

/-- Buffered bytes after `n` loop iterations with no break. -/
def streamBytes (sample : Nat → Int) (tokByte : Int → List Nat) (n : Nat) : List Nat :=
  ((List.range n).map (fun i => tokByte (sample i))).flatten

/-- Loop state after `n` uninterrupted iterations over an all-ASCII
stream. -/
def loopStateAt (sample : Nat → Int) (tokByte : Int → List Nat) (n : Nat) : LoopState :=
  ⟨tokensUpTo sample n, streamBytes sample tokByte n, 0, []⟩

/-- Configuration whose prompt tokenizes past the capacity, for C4. -/
def cfgPromptLong : LLMConfig :=
  { nCtx := 1, nVocab := 2, logitsAll := false, n_predict := 4, n_keep := 0,
    temperature := 1, mirostat := 0, mirostat_tau := 5, mirostat_eta := 1/10, top_k := 40,
    top_p := 9/10, tfs_z := 1, logit_bias := [], antiPromptBytes := [], prompt := "a" }

/-- Detokenizer used by the C9 witness: token 4 carries the bytes of
`"ld"`, every other token the byte of `"a"`. -/
def hwTokByte : Int → List Nat := fun t => if t = 4 then [108, 100] else [97]

/-- Loop state whose buffer holds the bytes of `"Hello Wor"`. -/
def helloWorState : LoopState :=
  ⟨[1, 2, 3], [72, 101, 108, 108, 111, 32, 87, 111, 114], 0, []⟩

/-- Detokenizer for the C5 amended witness: tokens 2, 3, 4 carry the
three UTF-8 bytes of the euro sign U+20AC, one byte each. -/
def euroTokByte : Int → List Nat := fun t =>
  if t = 2 then [226] else if t = 3 then [130] else if t = 4 then [172] else [97]

/-! ## Theorems

Supporting lemmas first, then one theorem per claim (with its
counterexample and witness theorems where the claim status needs
them). -/

theorem chunksOfAux_fuel_irrel (n : Nat) :
    ∀ (f1 : Nat) (l : List α) (f2 : Nat), l.length ≤ f1 → l.length ≤ f2 →
      chunksOfAux n l f1 = chunksOfAux n l f2 := by
  intro f1
  induction f1 with
  | zero =>
    intro l f2 h1 _
    have hl : l = [] := List.length_eq_zero.1 (by omega)
    subst hl
    cases f2 <;> rfl
  | succ f ih =>
    intro l f2 h1 h2
    cases l with
    | nil => cases f2 <;> rfl
    | cons x xs =>
      cases f2 with
      | zero => simp at h2
      | succ g =>
        rw [chunksOfAux, chunksOfAux]
        have hd : (xs.drop (n - 1)).length ≤ f := by
          rw [List.length_drop]
          simp only [List.length_cons] at h1
          omega
        have hd2 : (xs.drop (n - 1)).length ≤ g := by
          rw [List.length_drop]
          simp only [List.length_cons] at h2
          omega
        rw [ih (xs.drop (n - 1)) g hd hd2]

theorem chunksOf_nil (n : Nat) : chunksOf n ([] : List α) = [] := rfl

theorem chunksOf_cons (n : Nat) (x : α) (xs : List α) :
    chunksOf n (x :: xs) = (x :: xs).take n :: chunksOf n (xs.drop (n - 1)) := by
  rw [chunksOf, List.length_cons, chunksOfAux, chunksOf]
  have hd : (xs.drop (n - 1)).length ≤ xs.length := by
    rw [List.length_drop]; omega
  rw [chunksOfAux_fuel_irrel n xs.length (xs.drop (n - 1)) (xs.drop (n - 1)).length hd le_rfl]

theorem chunksOf_flatten_bounded (n : Nat) (hn : 1 ≤ n) :
    ∀ (N : Nat) (l : List α), l.length ≤ N → (chunksOf n l).flatten = l := by
  intro N
  induction N with
  | zero =>
    intro l h
    have hl : l = [] := List.length_eq_zero.1 (by omega)
    subst hl
    rfl
  | succ N ih =>
    intro l h
    cases l with
    | nil => rfl
    | cons x xs =>
      rw [chunksOf_cons, List.flatten_cons]
      rw [ih (xs.drop (n - 1)) (by rw [List.length_drop]; simp only [List.length_cons] at h; omega)]
      have hdrop : (x :: xs).drop n = xs.drop (n - 1) := by
        cases n with
        | zero => omega
        | succ m => simp
      rw [← hdrop, List.take_append_drop]

theorem chunksOf_flatten (n : Nat) (hn : 1 ≤ n) (l : List α) :
    (chunksOf n l).flatten = l :=
  chunksOf_flatten_bounded n hn l.length l le_rfl

theorem chunksOf_ne_nil (n : Nat) (l : List α) (hl : l ≠ []) :
    chunksOf n l ≠ [] := by
  cases l with
  | nil => exact absurd rfl hl
  | cons x xs => rw [chunksOf_cons]; simp

theorem chunksOf_length_le_bounded (n : Nat) :
    ∀ (N : Nat) (l : List α), l.length ≤ N → ∀ c ∈ chunksOf n l, c.length ≤ n := by
  intro N
  induction N with
  | zero =>
    intro l h
    have hl : l = [] := List.length_eq_zero.1 (by omega)
    subst hl
    simp [chunksOf_nil]
  | succ N ih =>
    intro l h
    cases l with
    | nil => simp [chunksOf_nil]
    | cons x xs =>
      rw [chunksOf_cons]
      intro c hc
      rcases List.mem_cons.1 hc with h2 | h2
      · subst h2
        simpa using List.length_take_le n (x :: xs)
      · exact ih (xs.drop (n - 1))
          (by rw [List.length_drop]; simp only [List.length_cons] at h; omega) c h2

theorem chunksOf_length_le (n : Nat) (l : List α) :
    ∀ c ∈ chunksOf n l, c.length ≤ n :=
  chunksOf_length_le_bounded n l.length l le_rfl

theorem length_setSlice (l : List α) (start : Nat) (xs : List α)
    (h : start + xs.length ≤ l.length) :
    (setSlice l start xs).length = l.length := by
  simp only [setSlice, List.length_append, List.length_take, List.length_drop]
  omega

theorem getD_set_self (l : List α) (i : Nat) (a d : α) (h : i < l.length) :
    (l.set i a).getD i d = a := by
  induction l generalizing i with
  | nil => simp at h
  | cons x xs ih =>
    cases i with
    | zero => simp [List.set, List.getD]
    | succ j =>
      simp only [List.set, List.getD_cons_succ]
      exact ih j (by simpa using h)

theorem getD_set_ne (l : List α) (i j : Nat) (a d : α) (h : i ≠ j) :
    (l.set i a).getD j d = l.getD j d := by
  induction l generalizing i j with
  | nil => simp [List.set]
  | cons x xs ih =>
    cases i with
    | zero =>
      cases j with
      | zero => exact absurd rfl h
      | succ k => simp [List.set]
    | succ i' =>
      cases j with
      | zero => simp [List.set]
      | succ k =>
        simp only [List.set, List.getD_cons_succ]
        exact ih i' k (fun hh => h (by rw [hh]))

theorem evalChunks_ok (cfg : LLMConfig) (evalStatus : List Int → Int → Int)
    (logitsBuf : List Int → Int → List ℚ) (chunks : List (List Int)) :
    ∀ st : CtxState, st.pastTokens ≤ cfg.nCtx → st.inputIds.length = cfg.nCtx →
    (evalChunks cfg evalStatus logitsBuf st chunks).err = none →
    (evalChunks cfg evalStatus logitsBuf st chunks).state.pastTokens
        = st.pastTokens + (chunks.map List.length).sum
      ∧ (evalChunks cfg evalStatus logitsBuf st chunks).calls
        = specCalls cfg.nCtx st.pastTokens chunks
      ∧ (evalChunks cfg evalStatus logitsBuf st chunks).state.pastTokens ≤ cfg.nCtx
      ∧ (evalChunks cfg evalStatus logitsBuf st chunks).state.inputIds.length = cfg.nCtx := by
  induction chunks with
  | nil => intro st h1 h2 _; simp [evalChunks, specCalls, h1, h2]
  | cons c cs ih =>
    intro st h1 h2 herr
    by_cases hs : evalStatus c (min ((cfg.nCtx : Int) - (c.length : Int))
        (((st.inputIds.take st.pastTokens).length : Int))) ≠ 0
    · exfalso
      simp only [evalChunks, evalOneChunk, if_pos hs] at herr
      exact Option.some_ne_none _ herr
    · by_cases hb : min cfg.nCtx (st.pastTokens + c.length) - min cfg.nCtx st.pastTokens ≠ c.length
      · exfalso
        simp only [evalChunks, evalOneChunk, if_neg hs, if_pos hb] at herr
        exact Option.some_ne_none _ herr
      · have hfit : st.pastTokens + c.length ≤ cfg.nCtx := by omega
        have hlen2 : (setSlice st.inputIds st.pastTokens c).length = cfg.nCtx := by
          rw [length_setSlice st.inputIds st.pastTokens c (by omega)]
          exact h2
        have hpastlen : (st.inputIds.take st.pastTokens).length = st.pastTokens := by
          rw [List.length_take]
          omega
        have heq : evalChunks cfg evalStatus logitsBuf st (c :: cs)
            = ⟨(evalChunks cfg evalStatus logitsBuf
                  ⟨st.pastTokens + c.length, setSlice st.inputIds st.pastTokens c,
                    setSlice st.scores (st.pastTokens + (if cfg.logitsAll then 0 else c.length - 1))
                      (chunksOf cfg.nVocab ((logitsBuf c (min ((cfg.nCtx : Int) - (c.length : Int))
                        (((st.inputIds.take st.pastTokens).length : Int)))).take
                        ((if cfg.logitsAll then c.length else 1) * cfg.nVocab)))⟩ cs).err,
                (evalChunks cfg evalStatus logitsBuf
                  ⟨st.pastTokens + c.length, setSlice st.inputIds st.pastTokens c,
                    setSlice st.scores (st.pastTokens + (if cfg.logitsAll then 0 else c.length - 1))
                      (chunksOf cfg.nVocab ((logitsBuf c (min ((cfg.nCtx : Int) - (c.length : Int))
                        (((st.inputIds.take st.pastTokens).length : Int)))).take
                        ((if cfg.logitsAll then c.length else 1) * cfg.nVocab)))⟩ cs).state,
                (c, min ((cfg.nCtx : Int) - (c.length : Int))
                    (((st.inputIds.take st.pastTokens).length : Int)))
                  :: (evalChunks cfg evalStatus logitsBuf
                  ⟨st.pastTokens + c.length, setSlice st.inputIds st.pastTokens c,
                    setSlice st.scores (st.pastTokens + (if cfg.logitsAll then 0 else c.length - 1))
                      (chunksOf cfg.nVocab ((logitsBuf c (min ((cfg.nCtx : Int) - (c.length : Int))
                        (((st.inputIds.take st.pastTokens).length : Int)))).take
                        ((if cfg.logitsAll then c.length else 1) * cfg.nVocab)))⟩ cs).calls⟩ := by
          simp only [evalChunks, evalOneChunk, if_neg hs, if_neg hb]
        rw [heq] at herr ⊢
        simp only at herr ⊢
        obtain ⟨ihA, ihB, ihC, ihD⟩ := ih _ (by simp only; omega) (by simp only [hlen2]) herr
        refine ⟨?_, ?_, by simpa using ihC, by simpa using ihD⟩
        · rw [ihA]
          simp only [List.map_cons, List.sum_cons]
          omega
        · rw [ihB]
          simp only [specCalls, hpastlen]

theorem evalChunks_invariant (cfg : LLMConfig) (evalStatus : List Int → Int → Int)
    (logitsBuf : List Int → Int → List ℚ) (chunks : List (List Int)) :
    ∀ st : CtxState, st.pastTokens ≤ cfg.nCtx → st.inputIds.length = cfg.nCtx →
    (evalChunks cfg evalStatus logitsBuf st chunks).state.pastTokens ≤ cfg.nCtx := by
  induction chunks with
  | nil => intro st h1 _; simpa [evalChunks] using h1
  | cons c cs ih =>
    intro st h1 h2
    by_cases hs : evalStatus c (min ((cfg.nCtx : Int) - (c.length : Int))
        (((st.inputIds.take st.pastTokens).length : Int))) ≠ 0
    · simp only [evalChunks, evalOneChunk, if_pos hs]
      exact h1
    · by_cases hb : min cfg.nCtx (st.pastTokens + c.length) - min cfg.nCtx st.pastTokens ≠ c.length
      · simp only [evalChunks, evalOneChunk, if_neg hs, if_pos hb]
        exact h1
      · have hfit : st.pastTokens + c.length ≤ cfg.nCtx := by omega
        have hlen2 : (setSlice st.inputIds st.pastTokens c).length = cfg.nCtx := by
          rw [length_setSlice st.inputIds st.pastTokens c (by omega)]
          exact h2
        simp only [evalChunks, evalOneChunk, if_neg hs, if_neg hb]
        exact ih _ (by simp only; omega) (by simp only [hlen2])

theorem evalChunks_calls_ne_nil (cfg : LLMConfig) (evalStatus : List Int → Int → Int)
    (logitsBuf : List Int → Int → List ℚ) (st : CtxState) (c : List Int) (cs : List (List Int)) :
    (evalChunks cfg evalStatus logitsBuf st (c :: cs)).calls ≠ [] := by
  rcases h : evalOneChunk cfg evalStatus logitsBuf st c with ⟨rec0, err?, st2⟩
  cases err? with
  | none => simp only [evalChunks, h]; simp
  | some e => simp only [evalChunks, h]; simp

theorem specCalls_fst_mem (nCtx past : Nat) (cs : List (List Int)) :
    ∀ p ∈ specCalls nCtx past cs, p.1 ∈ cs := by
  induction cs generalizing past with
  | nil => simp [specCalls]
  | cons c cs ih =>
    intro p hp
    rcases List.mem_cons.1 hp with h | h
    · subst h; simp
    · exact List.mem_cons_of_mem _ (ih _ _ h)

/-- C8: for batch ≥ 1, when `evaluate` returns successfully `pastTokens`
grows by exactly the number of ids passed in, and every adapter call got
`pastCount = min(nCtx − chunkLength, pastTokens-at-that-point)` (the
spec-side schedule `specCalls`), with every chunk of size at most the
batch size. -/
theorem evaluate_success_counts (cfg : LLMConfig) (evalStatus : List Int → Int → Int)
    (logitsBuf : List Int → Int → List ℚ) (st : CtxState) (tokens : List Int) (batch : Int)
    (hb : 1 ≤ batch) (hpast : st.pastTokens ≤ cfg.nCtx) (hlen : st.inputIds.length = cfg.nCtx)
    (hok : (evaluateImpl cfg evalStatus logitsBuf st tokens batch).err = none) :
    (evaluateImpl cfg evalStatus logitsBuf st tokens batch).state.pastTokens
        = st.pastTokens + tokens.length
      ∧ (evaluateImpl cfg evalStatus logitsBuf st tokens batch).calls
        = specCalls cfg.nCtx st.pastTokens (chunksOf batch.toNat tokens)
      ∧ ∀ p ∈ (evaluateImpl cfg evalStatus logitsBuf st tokens batch).calls,
          p.1.length ≤ batch.toNat := by
  have hbpos : 0 < batch := by omega
  have hb1 : 1 ≤ batch.toNat := by omega
  have hsum : ((chunksOf batch.toNat tokens).map List.length).sum = tokens.length := by
    rw [← List.length_flatten, chunksOf_flatten _ hb1]
  rw [evaluateImpl, if_pos hbpos] at hok ⊢
  obtain ⟨hA, hB, _, _⟩ := evalChunks_ok cfg evalStatus logitsBuf _ st hpast hlen hok
  refine ⟨by rw [hA, hsum], hB, ?_⟩
  intro p hp
  rw [hB] at hp
  exact chunksOf_length_le _ _ _ (specCalls_fst_mem _ _ _ _ hp)

/-- C8 witness: capacity 4, batch 2, three ids appended to a fresh state;
the counter lands on 3 and the two chunks were evaluated with
pastCount 0 and 2. -/
theorem evaluate_success_counts_witness :
    (evaluateImpl cfgEvalA adapterOkStatus adapterOneLogit stEvalA [1, 2, 3] 2).err = none
    ∧ ((evaluateImpl cfgEvalA adapterOkStatus adapterOneLogit stEvalA [1, 2, 3] 2).state.pastTokens
          = stEvalA.pastTokens + [1, 2, 3].length
        ∧ (evaluateImpl cfgEvalA adapterOkStatus adapterOneLogit stEvalA [1, 2, 3] 2).calls
          = specCalls cfgEvalA.nCtx stEvalA.pastTokens (chunksOf (Int.toNat 2) [1, 2, 3])
        ∧ ∀ p ∈ (evaluateImpl cfgEvalA adapterOkStatus adapterOneLogit stEvalA [1, 2, 3] 2).calls,
            p.1.length ≤ Int.toNat 2) :=
  ⟨by decide,
    evaluate_success_counts cfgEvalA adapterOkStatus adapterOneLogit stEvalA [1, 2, 3] 2
      (by decide) (by decide) (by decide) (by decide)⟩

/-- C10: with a non-positive batch size, `evaluate` returns normally with
no error, the whole context state (`pastTokens`, `inputIds`, `scores`)
unchanged, and the adapter never invoked (the full method body sits under
`if batch > 0:`). -/
theorem evaluate_nonpos_batch_noop (cfg : LLMConfig) (evalStatus : List Int → Int → Int)
    (logitsBuf : List Int → Int → List ℚ) (st : CtxState) (tokens : List Int) (batch : Int)
    (hb : batch ≤ 0) :
    evaluateImpl cfg evalStatus logitsBuf st tokens batch = ⟨none, st, []⟩ := by
  rw [evaluateImpl, if_neg (by omega)]

/-- C10 witness: batch 0 with pending ids leaves the fresh state intact. -/
theorem evaluate_nonpos_batch_noop_witness :
    evaluateImpl cfgEvalA adapterOkStatus adapterOneLogit stEvalA [1, 2, 3] 0
      = ⟨none, stEvalA, []⟩ :=
  evaluate_nonpos_batch_noop cfgEvalA adapterOkStatus adapterOneLogit stEvalA [1, 2, 3] 0
    (by decide)

/-- C3 counterexample: capacity 2, three ids in one chunk.  The run ends
in the numpy broadcast error (the source defines no `ContextOverflowError`
and performs no capacity check), and the adapter call log is non-empty:
the evaluation of the offending chunk was attempted *before* the error,
contradicting the claim that an error precedes any evaluation attempt. -/
theorem evaluate_overflow_counterexample :
    (evaluateImpl cfgEvalB adapterOkStatus adapterOneLogit stEvalB [1, 2, 3] 3).err
        = some .broadcastError
      ∧ (evaluateImpl cfgEvalB adapterOkStatus adapterOneLogit stEvalB [1, 2, 3] 3).calls
        = [([1, 2, 3], -1)] := by
  decide

/-- C3 amended: for batch ≥ 1 from a state within capacity, `pastTokens`
never exceeds `nCtx`; and when the passed ids would push it past `nCtx`,
an error is raised — but only after at least one adapter evaluation has
been attempted. -/
theorem evaluate_overflow_behavior (cfg : LLMConfig) (evalStatus : List Int → Int → Int)
    (logitsBuf : List Int → Int → List ℚ) (st : CtxState) (tokens : List Int) (batch : Int)
    (hb : 1 ≤ batch) (hpast : st.pastTokens ≤ cfg.nCtx) (hlen : st.inputIds.length = cfg.nCtx) :
    (evaluateImpl cfg evalStatus logitsBuf st tokens batch).state.pastTokens ≤ cfg.nCtx
      ∧ (cfg.nCtx < st.pastTokens + tokens.length →
          (evaluateImpl cfg evalStatus logitsBuf st tokens batch).err.isSome = true
            ∧ (evaluateImpl cfg evalStatus logitsBuf st tokens batch).calls ≠ []) := by
  have hbpos : 0 < batch := by omega
  have hb1 : 1 ≤ batch.toNat := by omega
  rw [evaluateImpl, if_pos hbpos]
  refine ⟨evalChunks_invariant cfg evalStatus logitsBuf _ st hpast hlen, ?_⟩
  intro hover
  have htok : tokens ≠ [] := by
    intro h
    rw [h] at hover
    simp at hover
    omega
  constructor
  · rcases h : (evalChunks cfg evalStatus logitsBuf st (chunksOf batch.toNat tokens)).err with _ | e
    · exfalso
      obtain ⟨hA, _, hC, _⟩ := evalChunks_ok cfg evalStatus logitsBuf _ st hpast hlen h
      have hsum : ((chunksOf batch.toNat tokens).map List.length).sum = tokens.length := by
        rw [← List.length_flatten, chunksOf_flatten _ hb1]
      rw [hA, hsum] at hC
      omega
    · simp [h]
  · rcases hc : chunksOf batch.toNat tokens with _ | ⟨c, cs⟩
    · exact absurd (by simpa [hc] using chunksOf_flatten batch.toNat hb1 tokens) (Ne.symm htok)
    · rw [← hc]
      rw [hc]
      exact evalChunks_calls_ne_nil cfg evalStatus logitsBuf st c cs

/-- C3 amended witness: the C3 counterexample input satisfies the amended
statement — counter stays at most 2, the error is raised, and the adapter
was invoked. -/
theorem evaluate_overflow_behavior_witness :
    (evaluateImpl cfgEvalB adapterOkStatus adapterOneLogit stEvalB [1, 2, 3] 3).state.pastTokens
        ≤ cfgEvalB.nCtx
      ∧ (cfgEvalB.nCtx < stEvalB.pastTokens + [1, 2, 3].length →
          (evaluateImpl cfgEvalB adapterOkStatus adapterOneLogit stEvalB [1, 2, 3] 3).err.isSome
              = true
            ∧ (evaluateImpl cfgEvalB adapterOkStatus adapterOneLogit stEvalB [1, 2, 3] 3).calls
              ≠ []) :=
  evaluate_overflow_behavior cfgEvalB adapterOkStatus adapterOneLogit stEvalB [1, 2, 3] 3
    (by decide) (by decide) (by decide)

theorem exists_all_le (l : List ℚ) (hl : l ≠ []) : ∃ v ∈ l, ∀ w ∈ l, w ≤ v := by
  induction l with
  | nil => exact absurd rfl hl
  | cons x xs ih =>
    cases xs with
    | nil => exact ⟨x, by simp⟩
    | cons y ys =>
      obtain ⟨v, hv, hmax⟩ := ih (by simp)
      by_cases h : x ≤ v
      · refine ⟨v, List.mem_cons_of_mem _ hv, ?_⟩
        intro w hw
        rcases List.mem_cons.1 hw with h2 | h2
        · exact h2 ▸ h
        · exact hmax w h2
      · refine ⟨x, List.mem_cons_self _ _, ?_⟩
        intro w hw
        rcases List.mem_cons.1 hw with h2 | h2
        · exact h2 ▸ le_rfl
        · exact le_trans (hmax w h2) (le_of_not_le h)

theorem greedyArgmax_lt_length (l : List ℚ) (hl : l ≠ []) : greedyArgmax l < l.length := by
  obtain ⟨v, hv, hmax⟩ := exists_all_le l hl
  exact List.findIdx_lt_length_of_exists ⟨v, hv, by simpa [List.all_eq_true] using hmax⟩

theorem greedyArgmax_maximal (l : List ℚ) (hl : l ≠ []) :
    ∀ w ∈ l, w ≤ l.getD (greedyArgmax l) 0 := by
  have hlt : l.findIdx (fun v => l.all (fun w => w ≤ v)) < l.length :=
    greedyArgmax_lt_length l hl
  have hp := List.findIdx_getElem (w := hlt)
  simp only [List.all_eq_true, decide_eq_true_eq] at hp
  intro w hw
  have hgd : l.getD (greedyArgmax l) 0 = l[l.findIdx (fun v => l.all (fun w => w ≤ v))] := by
    rw [greedyArgmax, List.getD_eq_getElem?_getD, List.getElem?_eq_getElem hlt, Option.getD_some]
  rw [hgd]
  exact hp w hw

theorem greedyArgmax_tiebreak (l : List ℚ) (hl : l ≠ []) (j : Nat) (hj : j < l.length)
    (heq : l.getD j 0 = l.getD (greedyArgmax l) 0) : greedyArgmax l ≤ j := by
  by_contra hcon
  have hjlt : j < l.findIdx (fun v => l.all (fun w => w ≤ v)) := by
    simpa [greedyArgmax] using lt_of_not_le hcon
  have hfalse := List.not_of_lt_findIdx hjlt
  have hgdj : l.getD j 0 = l[j] := by
    rw [List.getD_eq_getElem?_getD, List.getElem?_eq_getElem hj, Option.getD_some]
  have htrue : l.all (fun w => w ≤ l[j]) = true := by
    simp only [List.all_eq_true, decide_eq_true_eq]
    intro w hw
    have hmax := greedyArgmax_maximal l hl w hw
    rw [← heq, hgdj] at hmax
    exact hmax
  exact absurd (htrue.symm.trans hfalse) (by decide)

/-- C6: with temperature 0 the sampler is deterministic greedy argmax over
the biased-and-penalized logits, whatever the mirostat / top-k / top-p
settings are (the dispatch of line 148 tests temperature first): the
returned id indexes a maximal penalized logit and is the lowest such
index. -/
theorem temperature_zero_greedy (cfg : LLMConfig) (ext : SamplerExt) (lastTokens : List Int)
    (logits : List ℚ) (htemp : cfg.temperature = 0)
    (hne : ext.repPen lastTokens (applyLogitBias cfg.logit_bias logits) ≠ []) :
    (sampleTokenWithModel cfg ext lastTokens logits).1
        = ((greedyArgmax (ext.repPen lastTokens (applyLogitBias cfg.logit_bias logits)) : Nat) : Int)
      ∧ greedyArgmax (ext.repPen lastTokens (applyLogitBias cfg.logit_bias logits))
        < (ext.repPen lastTokens (applyLogitBias cfg.logit_bias logits)).length
      ∧ (∀ w ∈ ext.repPen lastTokens (applyLogitBias cfg.logit_bias logits),
          w ≤ (ext.repPen lastTokens (applyLogitBias cfg.logit_bias logits)).getD
            (greedyArgmax (ext.repPen lastTokens (applyLogitBias cfg.logit_bias logits))) 0)
      ∧ (∀ j, j < (ext.repPen lastTokens (applyLogitBias cfg.logit_bias logits)).length →
          (ext.repPen lastTokens (applyLogitBias cfg.logit_bias logits)).getD j 0
            = (ext.repPen lastTokens (applyLogitBias cfg.logit_bias logits)).getD
              (greedyArgmax (ext.repPen lastTokens (applyLogitBias cfg.logit_bias logits))) 0 →
          greedyArgmax (ext.repPen lastTokens (applyLogitBias cfg.logit_bias logits)) ≤ j) := by
  refine ⟨?_, greedyArgmax_lt_length _ hne, greedyArgmax_maximal _ hne,
    fun j hj heq => greedyArgmax_tiebreak _ hne j hj heq⟩
  rw [sampleTokenWithModel, if_pos htemp]

/-- C6 witness: temperature 0 with mirostat 1, top-k 40, top-p 0.9
configured; logits `[1, 3, 3, 2]` give token 1 — the maximum 3 at the
lowest of the two tying indices. -/
theorem temperature_zero_greedy_witness :
    cfgGreedy.temperature = 0
    ∧ (sampleTokenWithModel cfgGreedy extStub [] [1, 3, 3, 2]).1 = 1
    ∧ (sampleTokenWithModel cfgGreedy extStub [] [1, 3, 3, 2]).1
        = ((greedyArgmax (extStub.repPen [] (applyLogitBias cfgGreedy.logit_bias [1, 3, 3, 2])) : Nat) : Int) :=
  ⟨by decide, by decide,
    (temperature_zero_greedy cfgGreedy extStub [] [1, 3, 3, 2] (by decide) (by decide)).1⟩

/-- C1 evaluation: in mirostat mode 1 or 2 (with nonzero temperature, so
the mirostat branch is reached), the `mu` handed to the external mirostat
primitive equals `2 × mirostat_tau` at *every* sampling step of the call,
independent of any update the primitive makes at earlier steps: the local
`mirostatMU` is rebuilt from scratch inside every `sampleTokenWithModel`
invocation and its by-reference update is discarded, so no mu persists
across steps — the claimed per-call persistent mu does not exist. -/
theorem mirostat_mu_reinitialized_every_step (cfg : LLMConfig) (ext : SamplerExt)
    (logitsSeq : Nat → List ℚ) (lastSeq : Nat → List Int) (n : Nat)
    (hmode : cfg.mirostat = 1 ∨ cfg.mirostat = 2) (htemp : cfg.temperature ≠ 0) :
    sampleStepsMu cfg ext logitsSeq lastSeq n = some (2 * cfg.mirostat_tau) := by
  rw [sampleStepsMu, sampleTokenWithModel]
  rcases hmode with h | h
  · rw [if_neg htemp, if_pos h]
  · rw [if_neg htemp]
    by_cases h1 : cfg.mirostat = 1
    · rw [if_pos h1]
    · rw [if_neg h1, if_pos h]

/-- C1 witness: tau 5, mirostat 1, stub primitives whose update moves mu
to `mu - 1`; still both step 0 and step 7 sample with mu = 10 = 2 × tau. -/
theorem mirostat_mu_reinitialized_every_step_witness :
    (cfgMiro.mirostat = 1 ∨ cfgMiro.mirostat = 2) ∧ cfgMiro.temperature ≠ 0
    ∧ sampleStepsMu cfgMiro extStub (fun _ => [1, 2]) (fun _ => []) 0
        = some (2 * cfgMiro.mirostat_tau)
    ∧ sampleStepsMu cfgMiro extStub (fun _ => [1, 2]) (fun _ => []) 7
        = some (2 * cfgMiro.mirostat_tau) :=
  ⟨Or.inl (by decide), by decide,
    mirostat_mu_reinitialized_every_step cfgMiro extStub (fun _ => [1, 2]) (fun _ => []) 0
      (Or.inl (by decide)) (by decide),
    mirostat_mu_reinitialized_every_step cfgMiro extStub (fun _ => [1, 2]) (fun _ => []) 7
      (Or.inl (by decide)) (by decide)⟩

theorem applyLogitBias_not_mem (bias : List (Nat × ℚ)) (logits : List ℚ) (t : Nat)
    (h : t ∉ bias.map Prod.fst) :
    (applyLogitBias bias logits).getD t 0 = logits.getD t 0 := by
  induction bias generalizing logits with
  | nil => rfl
  | cons p rest ih =>
    rcases p with ⟨t0, b0⟩
    simp only [List.map_cons, List.mem_cons] at h
    push_neg at h
    rw [applyLogitBias, ih _ h.2, getD_set_ne _ _ _ _ _ (fun hh => h.1 hh.symm)]

/-- C7: the bias pass is multiplicative — for an entry `(t, b)` of the
logit-bias mapping (keys distinct, as for a Python dict), the logit of `t`
after the pass equals its old logit times `b` (not plus `b`). -/
theorem logit_bias_multiplicative (bias : List (Nat × ℚ)) (logits : List ℚ) (t : Nat) (b : ℚ)
    (hnodup : (bias.map Prod.fst).Nodup) (hmem : (t, b) ∈ bias) (hlt : t < logits.length) :
    (applyLogitBias bias logits).getD t 0 = logits.getD t 0 * b := by
  induction bias generalizing logits with
  | nil => simp at hmem
  | cons p rest ih =>
    rcases p with ⟨t0, b0⟩
    simp only [List.map_cons, List.nodup_cons] at hnodup
    rcases List.mem_cons.1 hmem with h | h
    · injection h with h1 h2
      subst h1; subst h2
      rw [applyLogitBias, applyLogitBias_not_mem _ _ _ hnodup.1,
        getD_set_self _ _ _ _ hlt]
    · have ht0 : t ≠ t0 := by
        intro hh
        exact hnodup.1 (hh ▸ List.mem_map_of_mem Prod.fst h)
      rw [applyLogitBias,
        ih (logits.set t0 (logits.getD t0 0 * b0)) hnodup.2 h (by simpa using hlt),
        getD_set_ne _ _ _ _ _ (fun hh => ht0 hh.symm)]

/-- C7 witness: bias 2 on token 5, baseline logit 1 — the biased logit is
the baseline times 2, i.e. 2, the spec's concrete instance. -/
theorem logit_bias_multiplicative_witness :
    (applyLogitBias [(5, 2)] [0, 0, 0, 0, 0, 1]).getD 5 0
        = ([0, 0, 0, 0, 0, (1 : ℚ)]).getD 5 0 * 2
    ∧ ([0, 0, 0, 0, 0, (1 : ℚ)]).getD 5 0 * 2 = 2 :=
  ⟨logit_bias_multiplicative [(5, 2)] [0, 0, 0, 0, 0, 1] 5 2
      (by simp) (by simp) (by simp),
   by norm_num [List.getD]⟩

theorem fixByte_small (f k c : Nat) (hc : c < 192) : fixByte f k c = f := by
  have h1 : 192 &&& c ≤ c := Nat.and_le_right
  have h2 : 224 &&& c ≤ c := Nat.and_le_right
  have h3 : 240 &&& c ≤ c := Nat.and_le_right
  simp only [fixByte]
  rw [if_neg (by omega), if_neg (by omega), if_neg (by omega)]

theorem fixByte_lead3_k1 (f c : Nat) (h1 : 224 ≤ c) (h2 : c < 240) : fixByte f 1 c = 2 := by
  have ha : 192 &&& c = 192 ∧ 224 &&& c = 224 := by interval_cases c <;> decide
  have hb : 240 &&& c ≤ c := Nat.and_le_right
  simp only [fixByte]
  rw [if_neg (by omega), if_pos ⟨by omega, ha.2⟩]

theorem fixByte_lead3_k2 (f c : Nat) (h1 : 224 ≤ c) (h2 : c < 240) : fixByte f 2 c = 1 := by
  have ha : 224 &&& c = 224 := by interval_cases c <;> decide
  have hb : 240 &&& c ≤ c := Nat.and_le_right
  simp only [fixByte]
  rw [if_neg (by omega), if_pos ⟨by omega, ha⟩]

theorem fixByte_lead3_k3 (f c : Nat) (h1 : 224 ≤ c) (h2 : c < 240) : fixByte f 3 c = f := by
  have hb : 240 &&& c ≤ c := Nat.and_le_right
  simp only [fixByte]
  rw [if_neg (by omega), if_neg (by omega), if_neg (by omega)]

theorem fixList_small (l : List Nat) : ∀ (f i : Nat), (∀ b ∈ l, b < 192) → fixList f i l = f := by
  induction l with
  | nil => intro f i _; rfl
  | cons c cs ih =>
    intro f i h
    rw [fixList, fixByte_small _ _ _ (h c (List.mem_cons_self _ _))]
    exact ih _ _ (fun b hb => h b (List.mem_cons_of_mem _ hb))

theorem recomputeFix_small (l : List Nat) (f : Nat) (h : ∀ b ∈ l, b < 192) :
    recomputeFix l f = f :=
  fixList_small _ f 0 (fun b hb => h b (List.mem_of_mem_drop hb))

theorem lastN_of_le (n : Nat) (l : List α) (h : l.length ≤ n) : lastN n l = l := by
  rw [lastN, Nat.sub_eq_zero_of_le h, List.drop_zero]

theorem lastN3_append3 (l : List α) (a b c : α) : lastN 3 (l ++ [a, b, c]) = [a, b, c] := by
  rw [lastN, List.length_append]
  have h : l.length + [a, b, c].length - 3 = l.length := by simp
  rw [h, List.drop_left]

theorem recomputeFix_lead_arrives (pre : List Nat) (b0 f : Nat) (hpre : pre ≠ [])
    (hsmall : ∀ b ∈ pre, b < 192) (h1 : 224 ≤ b0) (h2 : b0 < 240) :
    0 < recomputeFix (pre ++ [b0]) f := by
  rcases List.eq_nil_or_concat pre with h | ⟨q, z, hq⟩
  · exact absurd h hpre
  subst hq
  simp only [List.concat_eq_append] at hsmall ⊢
  have hz : z < 192 := hsmall z (by simp)
  rcases List.eq_nil_or_concat q with h | ⟨q2, y, hq2⟩
  · subst h
    simp only [List.nil_append]
    rw [recomputeFix, lastN_of_le 3 ([z] ++ [b0]) (by simp)]
    show 0 < fixByte (fixByte f 3 z) 2 b0
    rw [fixByte_small _ _ _ hz, fixByte_lead3_k2 _ _ h1 h2]
    omega
  · subst hq2
    simp only [List.concat_eq_append] at hsmall ⊢
    have hy : y < 192 := hsmall y (by simp)
    have hcat : (q2 ++ [y] ++ [z]) ++ [b0] = q2 ++ [y, z, b0] := by simp
    rw [recomputeFix, hcat, lastN3_append3]
    show 0 < fixByte (fixByte (fixByte f 3 y) 2 z) 1 b0
    rw [fixByte_small _ _ _ hy, fixByte_small _ _ _ hz, fixByte_lead3_k1 _ _ h1 h2]
    omega

theorem recomputeFix_mid_char (pre : List Nat) (b0 b1 f : Nat) (hpre : pre ≠ [])
    (hsmall : ∀ b ∈ pre, b < 192) (h1 : 224 ≤ b0) (h2 : b0 < 240) (hb1 : b1 < 192) :
    recomputeFix (pre ++ [b0] ++ [b1]) f = 1 := by
  rcases List.eq_nil_or_concat pre with h | ⟨q, z, hq⟩
  · exact absurd h hpre
  subst hq
  simp only [List.concat_eq_append] at hsmall ⊢
  have hz : z < 192 := hsmall z (by simp)
  have hcat : (q ++ [z]) ++ [b0] ++ [b1] = q ++ [z, b0, b1] := by simp
  rw [recomputeFix, hcat, lastN3_append3]
  show fixByte (fixByte (fixByte f 3 z) 2 b0) 1 b1 = 1
  rw [fixByte_small _ _ _ hz, fixByte_lead3_k2 _ _ h1 h2, fixByte_small _ _ _ hb1]

theorem recomputeFix_char_complete (pre : List Nat) (b0 b1 b2 f : Nat)
    (h1 : 224 ≤ b0) (h2 : b0 < 240) (hb1 : b1 < 192) (hb2 : b2 < 192) :
    recomputeFix (pre ++ [b0] ++ [b1] ++ [b2]) f = f := by
  have hcat : pre ++ [b0] ++ [b1] ++ [b2] = pre ++ [b0, b1, b2] := by simp
  rw [recomputeFix, hcat, lastN3_append3]
  show fixByte (fixByte (fixByte f 3 b0) 2 b1) 1 b2 = f
  rw [fixByte_lead3_k3 _ _ h1 h2, fixByte_small _ _ _ hb1, fixByte_small _ _ _ hb2]

theorem subIndex_le_length [DecidableEq α] (hay pat : List α) :
    containsSub hay pat = true → subIndex hay pat ≤ hay.length := by
  induction hay with
  | nil => intro _; simp [subIndex]
  | cons h hs ih =>
    intro hc
    rw [subIndex]
    by_cases hp : pat.isPrefixOf (h :: hs) = true
    · rw [if_pos hp]; simp
    · rw [if_neg hp]
      rw [containsSub, Bool.or_eq_true] at hc
      rcases hc with hc | hc
      · exact absurd hc hp
      · simpa using ih hc

theorem subIndex_isPrefixOf [DecidableEq α] (hay pat : List α) :
    containsSub hay pat = true → pat.isPrefixOf (hay.drop (subIndex hay pat)) = true := by
  induction hay with
  | nil =>
    intro hc
    rw [containsSub] at hc
    rw [subIndex, List.drop_nil]
    rw [List.isEmpty_iff] at hc
    subst hc
    rfl
  | cons h hs ih =>
    intro hc
    rw [subIndex]
    by_cases hp : pat.isPrefixOf (h :: hs) = true
    · rw [if_pos hp, List.drop_zero]; exact hp
    · rw [if_neg hp]
      rw [containsSub, Bool.or_eq_true] at hc
      rcases hc with hc | hc
      · exact absurd hc hp
      · simpa using ih hc

theorem subIndex_least [DecidableEq α] (hay pat : List α) :
    ∀ i, i < subIndex hay pat → pat.isPrefixOf (hay.drop i) = false := by
  induction hay with
  | nil => intro i hi; simp [subIndex] at hi
  | cons h hs ih =>
    intro i hi
    rw [subIndex] at hi
    by_cases hp : pat.isPrefixOf (h :: hs) = true
    · rw [if_pos hp] at hi; omega
    · rw [if_neg hp] at hi
      cases i with
      | zero =>
        rw [List.drop_zero]
        exact Bool.not_eq_true _ ▸ hp
      | succ j =>
        rw [List.drop_succ_cons]
        exact ih j (by omega)

theorem loopStep_suppressed (eos : Int) (exitTokens : List Int) (encAnti : List (List Nat))
    (nPredict : Nat) (tokByte : Int → List Nat) (st : LoopState) (t : Int)
    (hstop : ¬(t = eos ∨ t ∈ exitTokens))
    (hfix : 0 < recomputeFix (st.tempBytes ++ tokByte t) st.incompleteFix) :
    loopStep eos exitTokens encAnti nPredict tokByte st t
      = .cont false ⟨st.tokens ++ [t], st.tempBytes ++ tokByte t,
          recomputeFix (st.tempBytes ++ tokByte t) st.incompleteFix - 1, st.finalBytes⟩ := by
  simp only [loopStep]
  rw [if_neg hstop, if_pos hfix]

theorem loopStep_anti (eos : Int) (exitTokens : List Int) (encAnti : List (List Nat))
    (nPredict : Nat) (tokByte : Int → List Nat) (st : LoopState) (t : Int)
    (a : List Nat) (rest : List (List Nat))
    (hstop : ¬(t = eos ∨ t ∈ exitTokens))
    (hfix : recomputeFix (st.tempBytes ++ tokByte t) st.incompleteFix = 0)
    (hmatch : encAnti.filter (fun x => containsSub (st.tempBytes ++ tokByte t) x) = a :: rest) :
    loopStep eos exitTokens encAnti nPredict tokByte st t
      = .brk .antiPrompt ⟨st.tokens ++ [t],
          (st.tempBytes ++ tokByte t).take (subIndex (st.tempBytes ++ tokByte t) a), 0,
          st.finalBytes⟩ := by
  simp only [loopStep]
  rw [if_neg hstop, hfix, if_neg (by omega), hmatch]

theorem loopStep_clear (eos : Int) (exitTokens : List Int) (encAnti : List (List Nat))
    (nPredict : Nat) (tokByte : Int → List Nat) (st : LoopState) (t : Int)
    (hstop : ¬(t = eos ∨ t ∈ exitTokens))
    (hfix : recomputeFix (st.tempBytes ++ tokByte t) st.incompleteFix = 0)
    (hmatch : encAnti.filter (fun x => containsSub (st.tempBytes ++ tokByte t) x) = [])
    (hcap : (st.tokens ++ [t]).length ≤ nPredict) :
    loopStep eos exitTokens encAnti nPredict tokByte st t
      = .cont true ⟨st.tokens ++ [t], st.tempBytes ++ tokByte t, 0, st.finalBytes⟩ := by
  simp only [loopStep]
  rw [if_neg hstop, hfix, if_neg (by omega), hmatch, if_neg (by omega)]

theorem loopStep_cap (eos : Int) (exitTokens : List Int) (encAnti : List (List Nat))
    (nPredict : Nat) (tokByte : Int → List Nat) (st : LoopState) (t : Int)
    (hstop : ¬(t = eos ∨ t ∈ exitTokens))
    (hfix : recomputeFix (st.tempBytes ++ tokByte t) st.incompleteFix = 0)
    (hmatch : encAnti.filter (fun x => containsSub (st.tempBytes ++ tokByte t) x) = [])
    (hcap : nPredict < (st.tokens ++ [t]).length) :
    loopStep eos exitTokens encAnti nPredict tokByte st t
      = .brk .lengthCap ⟨st.tokens ++ [t], st.tempBytes ++ tokByte t, 0,
          tokensBytes tokByte (st.tokens ++ [t])⟩ := by
  simp only [loopStep]
  rw [if_neg hstop, hfix, if_neg (by omega), hmatch, if_pos hcap]

theorem loopStep_reaches_checks (eos : Int) (exitTokens : List Int) (encAnti : List (List Nat))
    (nPredict : Nat) (tokByte : Int → List Nat) (st : LoopState) (t : Int)
    (hstop : ¬(t = eos ∨ t ∈ exitTokens))
    (hfix : recomputeFix (st.tempBytes ++ tokByte t) st.incompleteFix = 0) :
    stepChecked (loopStep eos exitTokens encAnti nPredict tokByte st t) = true := by
  rcases hm : encAnti.filter (fun x => containsSub (st.tempBytes ++ tokByte t) x) with _ | ⟨a, rest⟩
  · by_cases hcap : nPredict < (st.tokens ++ [t]).length
    · rw [loopStep_cap eos exitTokens encAnti nPredict tokByte st t hstop hfix hm hcap]
      rfl
    · rw [loopStep_clear eos exitTokens encAnti nPredict tokByte st t hstop hfix hm (by omega)]
      rfl
  · rw [loopStep_anti eos exitTokens encAnti nPredict tokByte st t a rest hstop hfix hm]
    rfl

/-- C9: when the countdown is inactive and some configured anti-prompt
occurs in the buffer extended by the new token's bytes, the iteration
breaks with the buffer truncated at the leftmost occurrence of the first
matching anti-prompt: the cut prefix followed by the anti-prompt is a
prefix of the buffer, and no earlier position carries an occurrence. -/
theorem anti_prompt_truncation (eos : Int) (exitTokens : List Int) (encAnti : List (List Nat))
    (nPredict : Nat) (tokByte : Int → List Nat) (st : LoopState) (t : Int)
    (a : List Nat) (rest : List (List Nat))
    (hstop : ¬(t = eos ∨ t ∈ exitTokens))
    (hfix : recomputeFix (st.tempBytes ++ tokByte t) st.incompleteFix = 0)
    (hmatch : encAnti.filter (fun x => containsSub (st.tempBytes ++ tokByte t) x) = a :: rest) :
    loopStep eos exitTokens encAnti nPredict tokByte st t
      = .brk .antiPrompt ⟨st.tokens ++ [t],
          (st.tempBytes ++ tokByte t).take (subIndex (st.tempBytes ++ tokByte t) a), 0,
          st.finalBytes⟩
    ∧ ((st.tempBytes ++ tokByte t).take (subIndex (st.tempBytes ++ tokByte t) a) ++ a).isPrefixOf
        (st.tempBytes ++ tokByte t) = true
    ∧ ∀ i, i < subIndex (st.tempBytes ++ tokByte t) a →
        a.isPrefixOf ((st.tempBytes ++ tokByte t).drop i) = false := by
  have hca : containsSub (st.tempBytes ++ tokByte t) a = true := by
    have hmem : a ∈ encAnti.filter (fun x => containsSub (st.tempBytes ++ tokByte t) x) := by
      rw [hmatch]
      exact List.mem_cons_self _ _
    exact (List.mem_filter.1 hmem).2
  refine ⟨loopStep_anti eos exitTokens encAnti nPredict tokByte st t a rest hstop hfix hmatch,
    ?_, subIndex_least _ _⟩
  have hdrop := subIndex_isPrefixOf _ _ hca
  rw [List.isPrefixOf_iff_prefix] at hdrop ⊢
  obtain ⟨s, hs⟩ := hdrop
  refine ⟨s, ?_⟩
  rw [List.append_assoc, hs, List.take_append_drop]

/-- C9 witness: buffer `"Hello World"` with anti-prompt `"World"` breaks
the loop with the buffer truncated to `"Hello "` (bytes
`[72, 101, 108, 108, 111, 32]`). -/
theorem anti_prompt_truncation_witness :
    (loopStep 32000 [32002, 32001] [[87, 111, 114, 108, 100]] 100 hwTokByte helloWorState 4
        = .brk .antiPrompt ⟨helloWorState.tokens ++ [4],
            (helloWorState.tempBytes ++ hwTokByte 4).take
              (subIndex (helloWorState.tempBytes ++ hwTokByte 4) [87, 111, 114, 108, 100]), 0,
            helloWorState.finalBytes⟩
      ∧ ((helloWorState.tempBytes ++ hwTokByte 4).take
            (subIndex (helloWorState.tempBytes ++ hwTokByte 4) [87, 111, 114, 108, 100])
          ++ [87, 111, 114, 108, 100]).isPrefixOf (helloWorState.tempBytes ++ hwTokByte 4) = true
      ∧ ∀ i, i < subIndex (helloWorState.tempBytes ++ hwTokByte 4) [87, 111, 114, 108, 100] →
          ([87, 111, 114, 108, 100] : List Nat).isPrefixOf
            ((helloWorState.tempBytes ++ hwTokByte 4).drop i) = false)
    ∧ (helloWorState.tempBytes ++ hwTokByte 4).take
        (subIndex (helloWorState.tempBytes ++ hwTokByte 4) [87, 111, 114, 108, 100])
      = [72, 101, 108, 108, 111, 32] :=
  ⟨anti_prompt_truncation 32000 [32002, 32001] [[87, 111, 114, 108, 100]] 100 hwTokByte
      helloWorState 4 [87, 111, 114, 108, 100] [] (by decide) (by decide) (by decide),
   by decide⟩

/-- C5 counterexample: the lead byte 226 (0xE2) of a 3-byte UTF-8
character arriving into an *empty* buffer.  The recompute loop assigns
`k = 3 - 0 = 3` to the single buffered byte, and `number > k` fails for
every pattern, so no countdown starts and the iteration proceeds straight
to the anti-prompt check (`checked = true`) — refuting the claim that no
check occurs before the third byte of the character. -/
theorem utf8_guard_counterexample :
    loopStep 32000 [32002, 32001] [[65]] 10 (fun _ => [226]) initLoopState 1
      = .cont true ⟨[1], [226], 0, []⟩ := by
  decide

/-- C5 amended: the claimed suppression does hold once at least one byte
is already buffered: with a non-empty all-ASCII buffer and no pending
countdown, feeding a 3-byte UTF-8 character one byte per token suppresses
the checks on the first two bytes (countdown set from the trailing bytes,
decremented once per token) and first reaches the checks at the third
byte. -/
theorem utf8_guard_after_prior_byte (eos : Int) (exitTokens : List Int)
    (encAnti : List (List Nat)) (nPredict : Nat) (tokByte : Int → List Nat)
    (st : LoopState) (t0 t1 t2 : Int) (b0 b1 b2 : Nat)
    (hb0 : 224 ≤ b0 ∧ b0 < 240) (hb1 : 128 ≤ b1 ∧ b1 < 192) (hb2 : 128 ≤ b2 ∧ b2 < 192)
    (htok0 : tokByte t0 = [b0]) (htok1 : tokByte t1 = [b1]) (htok2 : tokByte t2 = [b2])
    (hstop0 : ¬(t0 = eos ∨ t0 ∈ exitTokens)) (hstop1 : ¬(t1 = eos ∨ t1 ∈ exitTokens))
    (hstop2 : ¬(t2 = eos ∨ t2 ∈ exitTokens))
    (hpre : st.tempBytes ≠ []) (hsmall : ∀ b ∈ st.tempBytes, b < 192)
    (hfix : st.incompleteFix = 0) :
    ∃ stA stB : LoopState,
      loopStep eos exitTokens encAnti nPredict tokByte st t0 = .cont false stA
      ∧ stA.tempBytes = st.tempBytes ++ [b0]
      ∧ loopStep eos exitTokens encAnti nPredict tokByte stA t1 = .cont false stB
      ∧ stB.tempBytes = st.tempBytes ++ [b0] ++ [b1]
      ∧ stB.incompleteFix = 0
      ∧ stepChecked (loopStep eos exitTokens encAnti nPredict tokByte stB t2) = true := by
  have hstep1 : loopStep eos exitTokens encAnti nPredict tokByte st t0
      = .cont false ⟨st.tokens ++ [t0], st.tempBytes ++ [b0],
          recomputeFix (st.tempBytes ++ [b0]) 0 - 1, st.finalBytes⟩ := by
    have h := loopStep_suppressed eos exitTokens encAnti nPredict tokByte st t0 hstop0 (by
      rw [htok0, hfix]
      exact recomputeFix_lead_arrives st.tempBytes b0 0 hpre hsmall hb0.1 hb0.2)
    rw [h, htok0, hfix]
  have hstep2 : loopStep eos exitTokens encAnti nPredict tokByte
      ⟨st.tokens ++ [t0], st.tempBytes ++ [b0], recomputeFix (st.tempBytes ++ [b0]) 0 - 1,
        st.finalBytes⟩ t1
      = .cont false ⟨(st.tokens ++ [t0]) ++ [t1], st.tempBytes ++ [b0] ++ [b1], 0,
          st.finalBytes⟩ := by
    have hfix2 : recomputeFix ((st.tempBytes ++ [b0]) ++ tokByte t1)
        (recomputeFix (st.tempBytes ++ [b0]) 0 - 1) = 1 := by
      rw [htok1]
      exact recomputeFix_mid_char st.tempBytes b0 b1 _ hpre hsmall hb0.1 hb0.2 (by omega)
    have h := loopStep_suppressed eos exitTokens encAnti nPredict tokByte
      ⟨st.tokens ++ [t0], st.tempBytes ++ [b0], recomputeFix (st.tempBytes ++ [b0]) 0 - 1,
        st.finalBytes⟩ t1 hstop1 (by rw [hfix2]; omega)
    rw [h, hfix2, htok1]
  have hstep3 : stepChecked (loopStep eos exitTokens encAnti nPredict tokByte
      ⟨(st.tokens ++ [t0]) ++ [t1], st.tempBytes ++ [b0] ++ [b1], 0, st.finalBytes⟩ t2)
      = true := by
    apply loopStep_reaches_checks eos exitTokens encAnti nPredict tokByte _ t2 hstop2
    show recomputeFix ((st.tempBytes ++ [b0] ++ [b1]) ++ tokByte t2) 0 = 0
    rw [htok2]
    exact recomputeFix_char_complete st.tempBytes b0 b1 b2 0 hb0.1 hb0.2 (by omega) (by omega)
  exact ⟨_, _, hstep1, rfl, hstep2, rfl, rfl, hstep3⟩

/-- C5 amended witness: one ASCII byte 97 buffered, then the euro sign
U+20AC fed as its three UTF-8 bytes 226, 130, 172, one per token. -/
theorem utf8_guard_after_prior_byte_witness :
    ∃ stA stB : LoopState,
      loopStep 32000 [32002, 32001] [[65]] 10 euroTokByte ⟨[1], [97], 0, []⟩ 2 = .cont false stA
      ∧ stA.tempBytes = [97] ++ [226]
      ∧ loopStep 32000 [32002, 32001] [[65]] 10 euroTokByte stA 3 = .cont false stB
      ∧ stB.tempBytes = [97] ++ [226] ++ [130]
      ∧ stB.incompleteFix = 0
      ∧ stepChecked (loopStep 32000 [32002, 32001] [[65]] 10 euroTokByte stB 4) = true :=
  utf8_guard_after_prior_byte 32000 [32002, 32001] [[65]] 10 euroTokByte
    ⟨[1], [97], 0, []⟩ 2 3 4 226 130 172 (by decide) (by decide) (by decide)
    (by decide) (by decide) (by decide) (by decide) (by decide) (by decide)
    (by decide) (by decide) (by decide)

theorem tokensUpTo_succ (sample : Nat → Int) (n : Nat) :
    tokensUpTo sample (n + 1) = tokensUpTo sample n ++ [sample n] := by
  rw [tokensUpTo, tokensUpTo, List.range_succ, List.map_append, List.map_singleton]

theorem tokensUpTo_length (sample : Nat → Int) (n : Nat) :
    (tokensUpTo sample n).length = n := by
  rw [tokensUpTo, List.length_map, List.length_range]

theorem streamBytes_succ (sample : Nat → Int) (tokByte : Int → List Nat) (n : Nat) :
    streamBytes sample tokByte (n + 1)
      = streamBytes sample tokByte n ++ tokByte (sample n) := by
  rw [streamBytes, streamBytes, List.range_succ, List.map_append, List.map_singleton,
    List.flatten_append, List.flatten_cons, List.flatten_nil, List.append_nil]

theorem streamBytes_small (sample : Nat → Int) (tokByte : Int → List Nat) (n : Nat)
    (hbyte : ∀ m b, b ∈ tokByte (sample m) → b < 192) :
    ∀ b ∈ streamBytes sample tokByte n, b < 192 := by
  intro b hb
  rw [streamBytes, List.mem_flatten] at hb
  obtain ⟨l, hl, hbl⟩ := hb
  rw [List.mem_map] at hl
  obtain ⟨i, _, hi⟩ := hl
  exact hbyte i b (hi ▸ hbl)

theorem loopStep_stateAt_cont (eos : Int) (exitTokens : List Int) (encAnti : List (List Nat))
    (nPredict : Nat) (tokByte : Int → List Nat) (sample : Nat → Int) (n : Nat)
    (hstop : ∀ m, ¬(sample m = eos ∨ sample m ∈ exitTokens))
    (hbyte : ∀ m b, b ∈ tokByte (sample m) → b < 192)
    (hanti : ∀ m, encAnti.filter (fun a => containsSub (streamBytes sample tokByte m) a) = [])
    (hlt : n + 1 ≤ nPredict) :
    loopStep eos exitTokens encAnti nPredict tokByte (loopStateAt sample tokByte n) (sample n)
      = .cont true (loopStateAt sample tokByte (n + 1)) := by
  have hbuf : streamBytes sample tokByte n ++ tokByte (sample n)
      = streamBytes sample tokByte (n + 1) := (streamBytes_succ sample tokByte n).symm
  have h := loopStep_clear eos exitTokens encAnti nPredict tokByte
    (loopStateAt sample tokByte n) (sample n) (hstop n)
    (by
      show recomputeFix (streamBytes sample tokByte n ++ tokByte (sample n)) 0 = 0
      rw [hbuf]
      exact recomputeFix_small _ 0 (streamBytes_small sample tokByte (n + 1) hbyte))
    (by
      show encAnti.filter
        (fun a => containsSub (streamBytes sample tokByte n ++ tokByte (sample n)) a) = []
      rw [hbuf]
      exact hanti (n + 1))
    (by
      show (tokensUpTo sample n ++ [sample n]).length ≤ nPredict
      rw [← tokensUpTo_succ, tokensUpTo_length]
      exact hlt)
  rw [h]
  show StepRes.cont true ⟨tokensUpTo sample n ++ [sample n],
      streamBytes sample tokByte n ++ tokByte (sample n), 0, []⟩
    = StepRes.cont true (loopStateAt sample tokByte (n + 1))
  rw [← tokensUpTo_succ, hbuf]
  rfl

theorem loopStep_stateAt_cap (eos : Int) (exitTokens : List Int) (encAnti : List (List Nat))
    (nPredict : Nat) (tokByte : Int → List Nat) (sample : Nat → Int) (n : Nat)
    (hstop : ∀ m, ¬(sample m = eos ∨ sample m ∈ exitTokens))
    (hbyte : ∀ m b, b ∈ tokByte (sample m) → b < 192)
    (hanti : ∀ m, encAnti.filter (fun a => containsSub (streamBytes sample tokByte m) a) = [])
    (hge : nPredict < n + 1) :
    loopStep eos exitTokens encAnti nPredict tokByte (loopStateAt sample tokByte n) (sample n)
      = .brk .lengthCap ⟨tokensUpTo sample (n + 1), streamBytes sample tokByte (n + 1), 0,
          tokensBytes tokByte (tokensUpTo sample (n + 1))⟩ := by
  have hbuf : streamBytes sample tokByte n ++ tokByte (sample n)
      = streamBytes sample tokByte (n + 1) := (streamBytes_succ sample tokByte n).symm
  have h := loopStep_cap eos exitTokens encAnti nPredict tokByte
    (loopStateAt sample tokByte n) (sample n) (hstop n)
    (by
      show recomputeFix (streamBytes sample tokByte n ++ tokByte (sample n)) 0 = 0
      rw [hbuf]
      exact recomputeFix_small _ 0 (streamBytes_small sample tokByte (n + 1) hbyte))
    (by
      show encAnti.filter
        (fun a => containsSub (streamBytes sample tokByte n ++ tokByte (sample n)) a) = []
      rw [hbuf]
      exact hanti (n + 1))
    (by
      show nPredict < (tokensUpTo sample n ++ [sample n]).length
      rw [← tokensUpTo_succ, tokensUpTo_length]
      exact hge)
  rw [h]
  show StepRes.brk .lengthCap ⟨tokensUpTo sample n ++ [sample n],
      streamBytes sample tokByte n ++ tokByte (sample n), 0,
      tokensBytes tokByte (tokensUpTo sample n ++ [sample n])⟩ = _
  rw [← tokensUpTo_succ, hbuf]

theorem runFrom_completes (eos : Int) (exitTokens : List Int) (encAnti : List (List Nat))
    (nPredict : Nat) (tokByte : Int → List Nat) (sample : Nat → Int)
    (hstop : ∀ m, ¬(sample m = eos ∨ sample m ∈ exitTokens))
    (hbyte : ∀ m b, b ∈ tokByte (sample m) → b < 192)
    (hanti : ∀ m, encAnti.filter (fun a => containsSub (streamBytes sample tokByte m) a) = []) :
    ∀ (k n : Nat), n + k = nPredict + 1 → 1 ≤ k →
      runFrom eos exitTokens encAnti nPredict tokByte sample k n (loopStateAt sample tokByte n)
        = (⟨tokensUpTo sample (nPredict + 1), streamBytes sample tokByte (nPredict + 1), 0,
            tokensBytes tokByte (tokensUpTo sample (nPredict + 1))⟩, true) := by
  intro k
  induction k with
  | zero => intro n _ hk; omega
  | succ k ih =>
    intro n h _
    rw [runFrom]
    rcases Nat.eq_zero_or_pos k with h0 | hpos
    · subst h0
      have hn : n = nPredict := by omega
      subst hn
      rw [loopStep_stateAt_cap eos exitTokens encAnti n tokByte sample n
        hstop hbyte hanti (by omega)]
    · rw [loopStep_stateAt_cont eos exitTokens encAnti nPredict tokByte sample n
        hstop hbyte hanti (by omega)]
      exact ih (n + 1) (by omega) (by omega)

/-- C2 counterexample: `n_predict = 0`, an ASCII single-byte token stream
with no stop token and no anti-prompt configured.  The loop terminates
only after *one* accepted token (`len(tokens) > n_predict` is checked
after appending), exceeding the claimed bound of at most
`n_predict = 0` accepted tokens. -/
theorem generation_cap_counterexample :
    (runFrom 32000 [32002, 32001] [] 0 (fun _ => [97]) (fun _ => 1) 1 0 initLoopState).2 = true
    ∧ (runFrom 32000 [32002, 32001] [] 0 (fun _ => [97]) (fun _ => 1) 1 0
        initLoopState).1.tokens.length = 1 := by
  decide

/-- C2 amended: when the sampled stream never produces a stop token, no
anti-prompt ever matches the buffered bytes, and every token's bytes are
free of UTF-8 lead bytes (so the incomplete-character countdown never
skips the length check), the loop of `generate` terminates after exactly
`n_predict + 1` accepted tokens. -/
theorem generation_loop_bounded (eos : Int) (exitTokens : List Int) (encAnti : List (List Nat))
    (nPredict : Nat) (tokByte : Int → List Nat) (sample : Nat → Int)
    (hstop : ∀ m, ¬(sample m = eos ∨ sample m ∈ exitTokens))
    (hbyte : ∀ m b, b ∈ tokByte (sample m) → b < 192)
    (hanti : ∀ m, encAnti.filter (fun a => containsSub (streamBytes sample tokByte m) a) = []) :
    (runFrom eos exitTokens encAnti nPredict tokByte sample (nPredict + 1) 0 initLoopState).2
        = true
    ∧ (runFrom eos exitTokens encAnti nPredict tokByte sample (nPredict + 1) 0
        initLoopState).1.tokens.length = nPredict + 1 := by
  have h0 : loopStateAt sample tokByte 0 = initLoopState := rfl
  have h := runFrom_completes eos exitTokens encAnti nPredict tokByte sample
    hstop hbyte hanti (nPredict + 1) 0 (by omega) (by omega)
  rw [h0] at h
  rw [h]
  exact ⟨rfl, tokensUpTo_length sample (nPredict + 1)⟩

/-- C2 amended witness: `n_predict = 2`, constant ASCII stream, no
anti-prompts: the loop terminates with exactly 3 accepted tokens. -/
theorem generation_loop_bounded_witness :
    (runFrom 32000 [32002, 32001] [] 2 (fun _ => [97]) (fun _ => 1) 3 0 initLoopState).2 = true
    ∧ (runFrom 32000 [32002, 32001] [] 2 (fun _ => [97]) (fun _ => 1) 3 0
        initLoopState).1.tokens.length = 2 + 1 := by
  refine generation_loop_bounded 32000 [32002, 32001] [] 2 (fun _ => [97]) (fun _ => 1)
    ?_ ?_ ?_
  · intro m
    show ¬((1 : Int) = 32000 ∨ (1 : Int) ∈ ([32002, 32001] : List Int))
    decide
  · intro m b hb
    have hb2 : b = 97 := List.mem_singleton.1 hb
    omega
  · intro m
    rfl

/-- C4 counterexample: capacity 1 with a prompt tokenizing to one token.
`generate` returns the empty string *normally* (the model's `GenOutcome`
has no error at all — the source prints a diagnostic and executes
`return ""` on lines 233-235) and the loop is never entered, refuting the
claim that a `PromptTooLongError` is raised. -/
theorem prompt_too_long_counterexample :
    generateModel cfgPromptLong (fun _ => [7]) 1 (fun _ => 2) (fun _ => [97]) 5
        = .promptTooLong
    ∧ genOutputBytes (generateModel cfgPromptLong (fun _ => [7]) 1 (fun _ => 2)
        (fun _ => [97]) 5) = [] := by
  constructor <;> rfl

/-- C4 amended: whenever the prompt is non-empty and tokenizes to at
least `nCtx` tokens, `generate` immediately returns the empty string with
the generation loop never started (no evaluation or sampling step). -/
theorem prompt_too_long_returns_empty (cfg : LLMConfig) (tok : String → List Int) (bos : Int)
    (sample : Nat → Int) (tokByte : Int → List Nat) (fuel : Nat)
    (hp : cfg.prompt ≠ "") (hlen : cfg.nCtx ≤ (tok cfg.prompt).length) :
    generateModel cfg tok bos sample tokByte fuel = .promptTooLong
    ∧ genOutputBytes (generateModel cfg tok bos sample tokByte fuel) = [] := by
  have h : generateModel cfg tok bos sample tokByte fuel = .promptTooLong := by
    simp only [generateModel]
    rw [if_neg hp, if_pos hlen]
  exact ⟨h, by rw [h]; rfl⟩

/-- C4 amended witness: the counterexample input satisfies the amended
statement. -/
theorem prompt_too_long_returns_empty_witness :
    generateModel cfgPromptLong (fun _ => [7]) 1 (fun _ => 2) (fun _ => [97]) 7
        = .promptTooLong
    ∧ genOutputBytes (generateModel cfgPromptLong (fun _ => [7]) 1 (fun _ => 2)
        (fun _ => [97]) 7) = [] :=
  prompt_too_long_returns_empty cfgPromptLong (fun _ => [7]) 1 (fun _ => 2) (fun _ => [97]) 7
    (by decide) (by decide)

end LLMCore
